import Mathlib

/-!
Verification of the span-detection core of the TimestampsInChatbox plugin
(src/index.tsx).  The TypeScript source is shallowly embedded: strings are
`List Char` (one entry per UTF-16 unit; all text involved is ASCII), the
process-wide mutable array `parsedNodes` is threaded explicitly, and the
host regex engine is modelled by hand-written matchers implementing the
exact leftmost-position, ordered-alternation backtracking semantics of the
19 literal regexes in `humanTimeFormatRegex`.  The `moment` library is an
external dependency; its two parsing entry points are abstracted as
boolean-validity parameters.
-/

/-- Slice of a list between positions `a` (inclusive) and `b` (exclusive),
clamped to the list; models `match[0]` extraction from a match range. -/
def sliceList (s : List Char) (a b : Nat) : List Char :=
  (s.take b).drop a

/-- Model of JavaScript `String.prototype.substring`: both arguments are
clamped to `[0, length]` and swapped when `a > b`. -/
def jsSubstring (s : List Char) (a b : Nat) : List Char :=
  let a' := min a s.length
  let b' := min b s.length
  sliceList s (min a' b') (max a' b')

/-- Two consecutive characters of `s` starting at `i`, when both exist. -/
def get2 (s : List Char) (i : Nat) : Option (Char × Char) :=
  match s.get? i, s.get? (i + 1) with
  | some a, some b => some (a, b)
  | _, _ => none

/-- Model of JavaScript `String.prototype.replace` with a plain-string
pattern: the first occurrence of `needle` in the subject is replaced by
`repl`; if there is none the subject is returned unchanged.  (None of the
replacement strings used by the source contain `$` specials.) -/
def replaceFirstStr (needle repl : List Char) : List Char → List Char
  | [] => if needle.isPrefixOf ([] : List Char) then repl else []
  | c :: rest =>
    if needle.isPrefixOf (c :: rest) then repl ++ (c :: rest).drop needle.length
    else c :: replaceFirstStr needle repl rest

/-- Insertion step of a stable sort: `x` is placed after every element whose
key is `≤ key x`, matching the stable `Array.prototype.sort` with the
comparator `(a, b) => a.index - b.index` used by the source. -/
def insertByKey {α : Type} (key : α → Nat) (x : α) : List α → List α
  | [] => [x]
  | y :: ys => if key y ≤ key x then y :: insertByKey key x ys else x :: y :: ys

/-- Stable sort by a natural-number key (insertion sort, processing the list
left to right so that equal keys keep their original relative order). -/
def sortByKey {α : Type} (key : α → Nat) (l : List α) : List α :=
  l.foldl (fun acc x => insertByKey key x acc) []

/-!
## PatternCatalog: the 19 regexes of `humanTimeFormatRegex`

Each regex is a concatenation of tokens.  A token is either a literal
character or one of the character-class groups that the source repeats
verbatim across its regexes.  `tokSrc` reproduces the exact `RegExp.source`
text of each token (`/` is escaped as in the regex literals), so that the
token list of a pattern flattens to precisely the source string that the
widening code manipulates with `String.replace`.
-/

/-- Token alphabet of the catalog regexes. `qmark` is the `(\?)` wildcard
group that the widening pass splices in; it occurs in no catalog pattern. -/
inductive Tok where
  | hh : Tok
  | mins : Tok
  | dd : Tok
  | mm2 : Tok
  | yyyy : Tok
  | h12 : Tok
  | ampm : Tok
  | optSp : Tok
  | qmark : Tok
  | lit : Char → Tok
deriving DecidableEq

/-- Exact `RegExp.source` text of each token. -/
def tokSrc : Tok → List Char
  | .hh => "(?:[01]\\d|2[0-3])".data
  | .mins => "(?:[0-5]\\d)".data
  | .dd => "(?:0[1-9]|[12]\\d|3[01])".data
  | .mm2 => "(?:0[1-9]|1[0-2])".data
  | .yyyy => "[12]\\d{3}".data
  | .h12 => "(?:0?[1-9]|1[0-2])".data
  | .ampm => "[AaPp][Mm]".data
  | .optSp => " ?".data
  | .qmark => "(\\?)".data
  | .lit c => if c = '/' then "\\/".data else [c]

/-- Backtracking token matcher.  `tokM t s i` is the list of end positions a
JavaScript regex engine would try for token `t` at position `i` of `s`, in
backtracking priority order (greedy `?` first, alternatives left to right).
All tokens except `h12` and `optSp` are deterministic. -/
def tokM : Tok → List Char → Nat → List Nat
  | .hh, s, i =>
    match get2 s i with
    | some (a, b) =>
      if ((a = '0' ∨ a = '1') ∧ b.isDigit) ∨ (a = '2' ∧ '0' ≤ b ∧ b ≤ '3') then [i + 2] else []
    | none => []
  | .mins, s, i =>
    match get2 s i with
    | some (a, b) => if ('0' ≤ a ∧ a ≤ '5') ∧ b.isDigit then [i + 2] else []
    | none => []
  | .dd, s, i =>
    match get2 s i with
    | some (a, b) =>
      if (a = '0' ∧ '1' ≤ b ∧ b ≤ '9') ∨ ((a = '1' ∨ a = '2') ∧ b.isDigit) ∨
          (a = '3' ∧ (b = '0' ∨ b = '1')) then [i + 2] else []
    | none => []
  | .mm2, s, i =>
    match get2 s i with
    | some (a, b) => if (a = '0' ∧ '1' ≤ b ∧ b ≤ '9') ∨ (a = '1' ∧ '0' ≤ b ∧ b ≤ '2') then [i + 2] else []
    | none => []
  | .yyyy, s, i =>
    match s.get? i, s.get? (i + 1), s.get? (i + 2), s.get? (i + 3) with
    | some a, some b, some c, some d =>
      if (a = '1' ∨ a = '2') ∧ b.isDigit ∧ c.isDigit ∧ d.isDigit then [i + 4] else []
    | _, _, _, _ => []
  | .h12, s, i =>
    (if s.get? i = some '0' then
      (match s.get? (i + 1) with
       | some b => if '1' ≤ b ∧ b ≤ '9' then [i + 2] else []
       | none => [])
     else
      (match s.get? i with
       | some c => if '1' ≤ c ∧ c ≤ '9' then [i + 1] else []
       | none => [])) ++
    (match get2 s i with
     | some (a, b) => if a = '1' ∧ '0' ≤ b ∧ b ≤ '2' then [i + 2] else []
     | none => [])
  | .ampm, s, i =>
    match get2 s i with
    | some (a, b) =>
      if (a = 'A' ∨ a = 'a' ∨ a = 'P' ∨ a = 'p') ∧ (b = 'M' ∨ b = 'm') then [i + 2] else []
    | none => []
  | .optSp, s, i => if s.get? i = some ' ' then [i + 1, i] else [i]
  | .qmark, s, i => if s.get? i = some '?' then [i + 1] else []
  | .lit c, s, i => if s.get? i = some c then [i + 1] else []

/-- All end positions (in backtracking priority order) of a match of the
token sequence `ts` anchored at position `i`. -/
def matchToks : List Tok → List Char → Nat → List Nat
  | [], _, i => [i]
  | t :: ts, s, i => (tokM t s i).foldr (fun j acc => matchToks ts s j ++ acc) []

/-- Anchored match attempt at position `i`: the end position a JavaScript
regex engine reports (its first backtracking success), if any. -/
def matchAt (ts : List Tok) (s : List Char) (i : Nat) : Option Nat :=
  (matchToks ts s i).head?

/-- Matching function type: anchored attempt at a position. -/
def MatcherFn : Type := List Char → Nat → Option Nat

/-- The 19 entries of `humanTimeFormatRegex`, in source order, as token
sequences. -/
def catalog : List (List Tok) :=
  [ [.yyyy, .lit '-', .mm2, .lit '-', .dd, .lit ' ', .hh, .lit ':', .mins],
    [.lit 'a', .lit 't', .lit ' ', .hh, .lit ':', .mins, .lit ' ', .lit 'o', .lit 'n', .lit ' ',
      .dd, .lit '/', .mm2],
    [.hh, .lit ':', .mins, .lit ' ', .lit 'o', .lit 'n', .lit ' ', .dd, .lit '/', .mm2],
    [.hh, .lit ':', .mins, .lit ' ', .dd, .lit '/', .mm2, .lit '/', .yyyy],
    [.dd, .lit '/', .mm2, .lit '/', .yyyy],
    [.mm2, .lit '/', .dd, .lit '/', .yyyy],
    [.yyyy, .lit '-', .mm2, .lit '-', .dd],
    [.dd, .lit '/', .mm2],
    [.mm2, .lit '/', .dd],
    [.lit 'a', .lit 't', .lit ' ', .h12, .lit ':', .mins, .lit ':', .mins, .optSp, .ampm],
    [.h12, .lit ':', .mins, .lit ':', .mins, .optSp, .ampm],
    [.lit 'a', .lit 't', .lit ' ', .h12, .lit ':', .mins, .optSp, .ampm],
    [.h12, .lit ':', .mins, .optSp, .ampm],
    [.lit 'a', .lit 't', .lit ' ', .h12, .optSp, .ampm],
    [.h12, .optSp, .ampm],
    [.lit 'a', .lit 't', .lit ' ', .hh, .lit ':', .mins, .lit ':', .mins],
    [.hh, .lit ':', .mins, .lit ':', .mins],
    [.lit 'a', .lit 't', .lit ' ', .hh, .lit ':', .mins],
    [.hh, .lit ':', .mins] ]

/-- The `RegExp.source` text of a token sequence. -/
def rxSrc (ts : List Tok) : List Char :=
  ts.foldr (fun t acc => tokSrc t ++ acc) []

/-!
## The host regex engine boundary

The widening pass builds regexes at run time from source text
(`new RegExp(pattern.source.replace(format.source, "(\\?)"), "g")`).
`tokenizeSrc` recovers the token sequence of any source string assembled
from the catalog's token vocabulary (which covers every string the program
ever feeds to `RegExp`); a string outside this fragment is not produced by
the program and is modelled as matching nothing.
-/

/-- Greedy recognizer for regex source text over the catalog's token
vocabulary.  Multi-character tokens are tried first (no token source is a
prefix of another, so recognition is deterministic); `\/` denotes a literal
slash; the remaining literal characters of the catalog are accepted
directly. -/
def tokenizeSrcAux : Nat → List Char → Option (List Tok)
  | _, [] => some []
  | 0, _ => none
  | fuel + 1, s =>
    if (tokSrc .hh).isPrefixOf s then
      (tokenizeSrcAux fuel (s.drop (tokSrc .hh).length)).map (Tok.hh :: ·)
    else if (tokSrc .mins).isPrefixOf s then
      (tokenizeSrcAux fuel (s.drop (tokSrc .mins).length)).map (Tok.mins :: ·)
    else if (tokSrc .dd).isPrefixOf s then
      (tokenizeSrcAux fuel (s.drop (tokSrc .dd).length)).map (Tok.dd :: ·)
    else if (tokSrc .mm2).isPrefixOf s then
      (tokenizeSrcAux fuel (s.drop (tokSrc .mm2).length)).map (Tok.mm2 :: ·)
    else if (tokSrc .yyyy).isPrefixOf s then
      (tokenizeSrcAux fuel (s.drop (tokSrc .yyyy).length)).map (Tok.yyyy :: ·)
    else if (tokSrc .h12).isPrefixOf s then
      (tokenizeSrcAux fuel (s.drop (tokSrc .h12).length)).map (Tok.h12 :: ·)
    else if (tokSrc .ampm).isPrefixOf s then
      (tokenizeSrcAux fuel (s.drop (tokSrc .ampm).length)).map (Tok.ampm :: ·)
    else if (tokSrc .optSp).isPrefixOf s then
      (tokenizeSrcAux fuel (s.drop (tokSrc .optSp).length)).map (Tok.optSp :: ·)
    else if (tokSrc .qmark).isPrefixOf s then
      (tokenizeSrcAux fuel (s.drop (tokSrc .qmark).length)).map (Tok.qmark :: ·)
    else
      match s with
      | [] => some []
      | '\\' :: '/' :: rest => (tokenizeSrcAux fuel rest).map (Tok.lit '/' :: ·)
      | c :: rest =>
        if c = ':' ∨ c = '-' ∨ c = ' ' ∨ c = 'a' ∨ c = 't' ∨ c = 'o' ∨ c = 'n' then
          (tokenizeSrcAux fuel rest).map (Tok.lit c :: ·)
        else none

/-- Token sequence of a regex source string, when it lies in the catalog
fragment. -/
def tokenizeSrc (s : List Char) : Option (List Tok) :=
  tokenizeSrcAux (s.length + 1) s

/-- Model of `new RegExp(src, "g")` restricted to the source strings the
program constructs: compile to the token matcher, or to a matcher that
never succeeds if the text falls outside the catalog fragment (such a
string is never produced by the program). -/
def compileSrc (src : List Char) : MatcherFn :=
  match tokenizeSrc src with
  | some ts => matchAt ts
  | none => fun _ _ => none

/-- Repeated `exec` on a global regex, collecting `(index, end)` pairs.
JavaScript resumes each search at `lastIndex` (the previous match's end);
the `e ≤ L` guard advances past a hypothetical empty match — the source's
`while` loop would not terminate there, but no pattern derived from the
catalog can match the empty string, so the guard is inert. -/
def gExecAux (M : MatcherFn) (s : List Char) : Nat → Nat → List (Nat × Nat)
  | 0, _ => []
  | fuel + 1, L =>
    if L ≤ s.length then
      match M s L with
      | some e => (L, e) :: gExecAux M s fuel (if e ≤ L then L + 1 else e)
      | none => gExecAux M s fuel (L + 1)
    else []

/-- All matches of a global regex over `s`, as `(index, end)` pairs in the
order `exec` yields them. -/
def gExecList (M : MatcherFn) (s : List Char) : List (Nat × Nat) :=
  gExecAux M s (s.length + 2) 0

/-!
## SpanRegistry data model (`ParsedNode`, `parsedNodes`)

The source's node objects gain and lose fields dynamically; here every
field is always present, with `isExtension := false` / `extendedText :=
none` standing for the absent (`undefined`) fields of freshly scanned
nodes.  The `id` field is a wall-clock timestamp in the source and is never
read by any code path verified here; it is modelled as `0`.
-/

/-- Identity of a `RegExp` object held in a node's `format` field: either
one of the 19 literal catalog regexes (compared by `===`, i.e. by array
position), or a regex constructed by the widening pass from a source
string (never `===` to a catalog literal). -/
inductive RegexRef where
  | catalog : Nat → RegexRef
  | derived : List Char → RegexRef
deriving DecidableEq

/-- JavaScript `===` on the regex objects reachable in `format` fields: a
catalog literal equals itself only; a freshly constructed regex is never
identical to a catalog literal.  (The source only ever compares a catalog
literal against a node's `format`.) -/
def jsSameRegex : RegexRef → RegexRef → Bool
  | .catalog i, .catalog j => i == j
  | _, _ => false

/-- Source text of the regex behind a `RegexRef`. -/
def srcOf : RegexRef → List Char
  | .catalog i => rxSrc ((catalog.get? i).getD [])
  | .derived s => s

/-- Embedded `ParsedNode` record. -/
structure ParsedNode where
  originalText : List Char
  index : Nat
  format : RegexRef
  id : Nat
  converted : Bool
  fresh : Bool
  isExtension : Bool
  extendedText : Option (List Char)
deriving DecidableEq

/-- End offset of the registry range a node occupies
(`node.index + node.originalText.length`). -/
def nodeEnd (n : ParsedNode) : Nat :=
  n.index + n.originalText.length

/-- Displayed text used for length comparison in `addNode`: a non-fresh
node counts as the placeholder `"?"`; a fresh extension counts as its
`extendedText` (always present on extensions built by the program; the
`getD` default covers the `undefined` access the source suppresses with
`@ts-ignore`), and a fresh plain node as its `originalText`. -/
def nodeText (n : ParsedNode) : List Char :=
  if n.fresh then (if n.isExtension then n.extendedText.getD [] else n.originalText) else ['?']

/-- Embedding of `getIntersectingNodes(index, length, arr)`: keeps the
nodes for which an endpoint of the searched range falls inside the node's
closed range. -/
def getIntersectingNodes (index length : Nat) (arr : List ParsedNode) : List ParsedNode :=
  arr.filter fun node =>
    decide ((index ≥ node.index ∧ index ≤ nodeEnd node) ∨
      (index + length ≥ node.index ∧ index + length ≤ nodeEnd node))

/-- Stable sort of a node list by ascending `index`
(`arr.sort((a, b) => a.index - b.index)`). -/
def sortByIndex (l : List ParsedNode) : List ParsedNode :=
  sortByKey (fun n => n.index) l

/-- Embedding of `addNode(node, targetArray)`: discard the candidate when
some intersecting node's displayed text is strictly longer; otherwise drop
every node whose `index` lies in the closed range
`[node.index, node.index + node.originalText.length]`, append the
candidate and sort by `index`. -/
def addNode (node : ParsedNode) (targetArray : List ParsedNode) : List ParsedNode :=
  let intersectingNodes := getIntersectingNodes node.index node.originalText.length targetArray
  let longerNode :=
    if intersectingNodes.isEmpty then none
    else intersectingNodes.find? fun n => decide ((nodeText node).length < (nodeText n).length)
  match longerNode with
  | some _ => targetArray
  | none =>
    let filteredArray := targetArray.filter fun n =>
      decide (n.index < node.index ∨ n.index > node.index + node.originalText.length)
    sortByIndex (filteredArray ++ [node])

/-!
## Placeholder reconciliation and the scan / widening passes
(`findTimesInOriginalSource`)
-/

/-- Reconciliation step at the top of `findTimesInOriginalSource`: when the
source text contains a `?`, split the held nodes (walked in reverse) into
those sitting at a `?` (the `placeholderValues` that the widening pass will
process) and those that are dropped; when it contains none, clear the
registry.  Returns `(placeholderValues, remaining registry)`. -/
def reconcile (source : List Char) (nodes : List ParsedNode) :
    List ParsedNode × List ParsedNode :=
  if source.contains '?' then
    let placeholderValues := nodes.reverse.filter fun n => decide (source.get? n.index = some '?')
    let toRemove := nodes.reverse.filter fun n => decide (¬ source.get? n.index = some '?')
    (placeholderValues, nodes.filter fun n => decide (¬ n ∈ toRemove))
  else ([], [])

/-- Node built for a plain scan match (`match[0]`, `match.index`, the
pattern that produced it; `fresh: true`, `converted: false`). -/
def mkScanNode (source : List Char) (k : Nat) (m : Nat × Nat) : ParsedNode :=
  { originalText := sliceList source m.1 m.2
    index := m.1
    format := .catalog k
    id := 0
    converted := false
    fresh := true
    isExtension := false
    extendedText := none }

/-- All nodes the scan of pattern `k` proposes over `source`, in `exec`
order. -/
def scanCandidates (source : List Char) (k : Nat) (ts : List Tok) : List ParsedNode :=
  (gExecList (matchAt ts) source).map (mkScanNode source k)

/-- Initial-scan loop: for each catalog pattern in order, run a global
search and `addNode` every match. -/
def scanLoopAux (source : List Char) : Nat → List (List Tok) → List ParsedNode → List ParsedNode
  | _, [], reg => reg
  | k, ts :: rest, reg =>
    scanLoopAux source (k + 1) rest
      ((scanCandidates source k ts).foldl (fun r e => addNode e r) reg)

/-- Initial scan over the whole catalog. -/
def scanLoop (source : List Char) (reg : List ParsedNode) : List ParsedNode :=
  scanLoopAux source 0 catalog reg

/-- Extension node built from a widening match `m` for placeholder node
`node`: the matched text with the `?` substituted back by the node's
original text becomes `extendedText`, and the constructed regex is recorded
as the node's `format`. -/
def mkExtNode (source : List Char) (node : ParsedNode) (convSrc : List Char)
    (m : Nat × Nat) : ParsedNode :=
  let text := sliceList source m.1 m.2
  { originalText := text
    index := m.1
    format := .derived convSrc
    id := 0
    converted := false
    fresh := true
    isExtension := true
    extendedText := some (replaceFirstStr ['?'] node.originalText text) }

/-- Extension candidates that the widening pass submits for placeholder
node `node` and catalog pattern `ts`: matches of the derived pattern
(`pattern.source` with the node's own pattern source replaced by `(\?)`)
whose start position coincides with the node's recorded offset — the inner
`continue` of the source skips every other match. -/
def extensionCandidates (source : List Char) (node : ParsedNode) (ts : List Tok) :
    List ParsedNode :=
  let convSrc := replaceFirstStr (srcOf node.format) (tokSrc .qmark) (rxSrc ts)
  ((gExecList (compileSrc convSrc) source).filter fun m => node.index == m.1).map
    (mkExtNode source node convSrc)

/-- Widening step for one placeholder node and one catalog pattern: skipped
entirely when the pattern `===` the node's own format; otherwise every
position-coincident match is submitted through `addNode`. -/
def widenNodePattern (source : List Char) (node : ParsedNode) (k : Nat) (ts : List Tok)
    (reg : List ParsedNode) : List ParsedNode :=
  if jsSameRegex (.catalog k) node.format then reg
  else (extensionCandidates source node ts).foldl (fun r e => addNode e r) reg

/-- Widening over the whole catalog for one placeholder node. -/
def widenPatternsAux (source : List Char) (node : ParsedNode) :
    Nat → List (List Tok) → List ParsedNode → List ParsedNode
  | _, [], reg => reg
  | k, ts :: rest, reg =>
    widenPatternsAux source node (k + 1) rest (widenNodePattern source node k ts reg)

/-- Widening loop over the placeholder nodes collected by `reconcile`. -/
def widenLoop (source : List Char) : List ParsedNode → List ParsedNode → List ParsedNode
  | reg, [] => reg
  | reg, node :: rest => widenLoop source (widenPatternsAux source node 0 catalog reg) rest

/-- Embedding of `findTimesInOriginalSource`, also exposing (second
component) the list of placeholder nodes the widening step was run for. -/
def findTimesFull (source : List Char) (parsedNodes : List ParsedNode) :
    List ParsedNode × List ParsedNode :=
  let pk := reconcile source parsedNodes
  (sortByIndex (widenLoop source (scanLoop source pk.2) pk.1), pk.1)

/-- The registry after one `findTimesInOriginalSource` pass. -/
def findTimesInOriginalSource (source : List Char) (parsedNodes : List ParsedNode) :
    List ParsedNode :=
  (findTimesFull source parsedNodes).1

/-!
## The whole-string pass of the `validTime` markdown rule

`customRules.validTime.match` on the whole-string pass runs
`findTimesInOriginalSource`, bails out when no fresh node exists, and
otherwise splits the source into `prepText` / `prepValidTime` segments
(walking the registry backwards), clearing every node's `fresh` flag.  The
node `id`s carried by the source's split objects are wall-clock values and
are not part of a segment's identity; segments are modelled by position,
text and kind.
-/

/-- Kind of a split segment. -/
inductive SegKind where
  | prepText : SegKind
  | prepValidTime : SegKind
deriving DecidableEq

/-- One entry of `state.splitNodes`: position, source text, the text
actually fed to the nested parse (`actualText`, present only on
`prepValidTime` segments), and the kind. -/
structure SplitNode where
  index : Nat
  text : List Char
  actualText : Option (List Char)
  kind : SegKind
deriving DecidableEq

/-- Backwards walk over the registry building the split segments; returns
the accumulated segments (in push order) and the final `prevIndex`
(`none` models the initial `-1`). -/
def buildSplitAux (source : List Char) :
    List ParsedNode → Option Nat → List SplitNode → List SplitNode × Option Nat
  | [], p, acc => (acc, p)
  | node :: rest, p, acc =>
    let nodeLength := if node.fresh then node.originalText.length else 1
    let prevIndex := p.getD (node.index + nodeLength)
    let afterText :=
      if node.index = prevIndex then [] else jsSubstring source (node.index + nodeLength) prevIndex
    let acc1 :=
      if afterText.isEmpty then acc
      else acc ++ [⟨node.index + nodeLength, afterText, none, .prepText⟩]
    let acc2 := acc1 ++
      [⟨node.index, node.originalText, some (if node.fresh then node.originalText else ['?']),
        .prepValidTime⟩]
    buildSplitAux source rest (some node.index) acc2

/-- Split-segment list of the whole-string pass: backwards walk, leading
plain-text segment, stable sort by position. -/
def wholeStringSplit (source : List Char) (registry : List ParsedNode) : List SplitNode :=
  let ap := buildSplitAux source registry.reverse none []
  let beforeText := jsSubstring source 0 (ap.2.getD 0)
  let acc := if beforeText.isEmpty then ap.1 else ap.1 ++ [⟨0, beforeText, none, .prepText⟩]
  sortByKey (fun sn => sn.index) acc

/-- Whole-string pass of `customRules.validTime.match`: returns the split
segments (`none` models returning `null`, i.e. the rule does not fire) and
the registry as left behind by the pass (every walked node's `fresh` flag
cleared). -/
def wholeStringMatch (source : List Char) (parsedNodes : List ParsedNode) :
    Option (List SplitNode) × List ParsedNode :=
  let registry := findTimesInOriginalSource source parsedNodes
  if registry.any (fun n => n.fresh) then
    let segs := wholeStringSplit source registry
    (if segs.isEmpty then none else some segs, registry.map fun n => { n with fresh := false })
  else (none, registry)

/-!
## TimeResolver (`parseHumanTime`)

The 25 strict `moment` format strings, in source order.  `moment` is an
external library: strict validity of a text against a format and lenient
natural-language validity are abstracted as boolean parameters, and a
parse result is represented by the pair (format used — `none` for the
lenient fallback, literal text). -/

/-- The `humanTimeFormats` list (src/index.tsx lines 58-84), in order. -/
def humanTimeFormats : List (List Char) :=
  [ "YYYY-MM-DD HH:mm".data,
    "[at] HH:mm [on] DD/MM".data,
    "HH:mm [on] DD/MM".data,
    "HH:mm DD/MM/YYYY".data,
    "DD/MM/YYYY".data,
    "MM/DD/YYYY".data,
    "YYYY-MM-DD".data,
    "DD/MM".data,
    "MM/DD".data,
    "[at] h:mm:ss A".data,
    "h:mm:ss A".data,
    "[at] h:mm:ssA".data,
    "h:mm:ssA".data,
    "[at] h:mm A".data,
    "h:mm A".data,
    "[at] h:mmA".data,
    "h:mmA".data,
    "[at] hA".data,
    "hA".data,
    "[at] h A".data,
    "h A".data,
    "[at] HH:mm:ss".data,
    "HH:mm:ss".data,
    "[at] HH:mm".data,
    "HH:mm".data ]

/-- First format of `fs` that `strictValid` accepts for `ts`, in order. -/
def tryFormats (strictValid : List Char → List Char → Bool) (ts : List Char) :
    List (List Char) → Option (List Char)
  | [] => none
  | f :: fs => if strictValid f ts then some f else tryFormats strictValid ts fs

/-- Embedding of `parseHumanTime`: try every strict format in catalog
order (`moment(t, format, true)`), fall back to the lenient parse
(`moment(t)`), return `null` when both fail.  A result
`some (some f, t)` stands for the strict parse of `t` with format `f`,
`some (none, t)` for the lenient parse of `t`. -/
def parseHumanTime (strictValid : List Char → List Char → Bool)
    (naturalValid : List Char → Bool) (timeString : List Char) :
    Option (Option (List Char) × List Char) :=
  match tryFormats strictValid timeString humanTimeFormats with
  | some f => some (some f, timeString)
  | none => if naturalValid timeString then some (none, timeString) else none

/-!
## Definitions following the specification's words

These three definitions are deliberately written from the specification
text (not from the source) so the specification's predicates can be
compared against the code's. -/

/-- Follows the spec's words (§4.2 step 1): a span intersects the searched
range if either endpoint of one falls within the other's range, inclusive
of shared boundary endpoints. -/
def specIntersects (index length : Nat) (n : ParsedNode) : Prop :=
  (n.index ≤ index ∧ index ≤ nodeEnd n) ∨
  (n.index ≤ index + length ∧ index + length ≤ nodeEnd n) ∨
  (index ≤ n.index ∧ n.index ≤ index + length) ∨
  (index ≤ nodeEnd n ∧ nodeEnd n ≤ index + length)

/-- Follows the spec's words (§4.2 step 2): a span's current displayed
text length is its `extendedText` length if extended, else its
`originalText` length. -/
def specDisplayedLength (n : ParsedNode) : Nat :=
  if n.isExtension then (n.extendedText.getD []).length else n.originalText.length

/-- Follows the spec's words (§4.2 step 3): a span is strictly contained
within the candidate's range when its start and end both lie within the
candidate's range. -/
def specStrictlyContained (cand n : ParsedNode) : Prop :=
  cand.index ≤ n.index ∧ nodeEnd n ≤ nodeEnd cand

instance (index length : Nat) (n : ParsedNode) : Decidable (specIntersects index length n) := by
  unfold specIntersects
  exact inferInstance

instance (cand n : ParsedNode) : Decidable (specStrictlyContained cand n) := by
  unfold specStrictlyContained
  exact inferInstance

/-!
## Concrete inputs used by witnesses and counterexamples
-/

/-- Scan node for `"13/12"` at offset 0 produced by catalog pattern 7
(`DD/MM`) on the input `"13/12/13"`. -/
def overlapNodeA : ParsedNode :=
  { originalText := "13/12".data, index := 0, format := .catalog 7, id := 0,
    converted := false, fresh := true, isExtension := false, extendedText := none }

/-- Scan node for `"12/13"` at offset 3 produced by catalog pattern 8
(`MM/DD`) on the input `"13/12/13"`. -/
def overlapNodeB : ParsedNode :=
  { originalText := "12/13".data, index := 3, format := .catalog 8, id := 0,
    converted := false, fresh := true, isExtension := false, extendedText := none }

/-- Non-fresh held span of recorded text length 10 at offset 0. -/
def heldC2 : ParsedNode :=
  { originalText := "0123456789".data, index := 0, format := .catalog 0, id := 0,
    converted := true, fresh := false, isExtension := false, extendedText := none }

/-- Fresh candidate of length 5 at offset 0. -/
def candC2 : ParsedNode :=
  { originalText := "01234".data, index := 0, format := .catalog 0, id := 0,
    converted := false, fresh := true, isExtension := false, extendedText := none }

/-- Fresh held span `[3, 11)`: starts inside `[0, 10)` but ends beyond it. -/
def heldC3 : ParsedNode :=
  { originalText := "abcdefgh".data, index := 3, format := .catalog 0, id := 0,
    converted := false, fresh := true, isExtension := false, extendedText := none }

/-- Fresh candidate covering `[0, 10)`. -/
def candC3 : ParsedNode :=
  { originalText := "0123456789".data, index := 0, format := .catalog 0, id := 0,
    converted := false, fresh := true, isExtension := false, extendedText := none }

/-- Held span `[2, 3)`, strictly inside the queried range `[0, 10]`. -/
def heldC4 : ParsedNode :=
  { originalText := "x".data, index := 2, format := .catalog 0, id := 0,
    converted := false, fresh := true, isExtension := false, extendedText := none }

/-- Held node at offset 0 (sitting at the `?` of the witness source). -/
def rNodeA : ParsedNode :=
  { originalText := "13:30".data, index := 0, format := .catalog 18, id := 0,
    converted := true, fresh := false, isExtension := false, extendedText := none }

/-- Held node at offset 1 (not at a `?` of the witness source). -/
def rNodeB : ParsedNode :=
  { originalText := "14:00".data, index := 1, format := .catalog 18, id := 0,
    converted := true, fresh := false, isExtension := false, extendedText := none }

/-- Placeholder node for the widening witness: a `"13:30"` span recorded at
offset 0, whose position holds a `?` in the witness source `"?:45"`. -/
def widenNodeW : ParsedNode :=
  { originalText := "13:30".data, index := 0, format := .catalog 18, id := 0,
    converted := true, fresh := false, isExtension := false, extendedText := none }

/-- Catalog pattern 16 (`HH:mm:ss`), the widening pattern of the witness. -/
def widenToksW : List Tok :=
  [.hh, .lit ':', .mins, .lit ':', .mins]

/-- Extension node the widening pass builds in the witness scenario. -/
def widenExtW : ParsedNode :=
  { originalText := "?:45".data, index := 0,
    format := .derived "(\\?):(?:[0-5]\\d)".data, id := 0,
    converted := false, fresh := true, isExtension := true,
    extendedText := some "13:30:45".data }

/-- Fresh held span used by the C10 witness (equal-length conflict). -/
def heldC10 : ParsedNode :=
  { originalText := "03/21".data, index := 0, format := .catalog 8, id := 0,
    converted := false, fresh := true, isExtension := false, extendedText := none }

/-- Equal-length fresh candidate at the same offset for the C10 witness. -/
def candC10 : ParsedNode :=
  { originalText := "21/03".data, index := 0, format := .catalog 7, id := 0,
    converted := false, fresh := true, isExtension := false, extendedText := none }

/-- Long fresh held span for the C2-amended witness. -/
def heldW2 : ParsedNode :=
  { originalText := "0123456789".data, index := 0, format := .catalog 0, id := 0,
    converted := false, fresh := true, isExtension := false, extendedText := none }

/-- Short fresh candidate intersecting `heldW2` for the C2-amended witness. -/
def candW2 : ParsedNode :=
  { originalText := "abc".data, index := 2, format := .catalog 0, id := 0,
    converted := false, fresh := true, isExtension := false, extendedText := none }

/-- Held span outside the C3-amended witness candidate's range. -/
def heldW3out : ParsedNode :=
  { originalText := "zz".data, index := 7, format := .catalog 0, id := 0,
    converted := false, fresh := true, isExtension := false, extendedText := none }

/-- Held span whose start lies inside the C3-amended witness candidate's
range. -/
def heldW3in : ParsedNode :=
  { originalText := "y".data, index := 2, format := .catalog 0, id := 0,
    converted := false, fresh := true, isExtension := false, extendedText := none }

/-- Candidate of the C3-amended witness, covering `[0, 5)`. -/
def candW3 : ParsedNode :=
  { originalText := "01234".data, index := 0, format := .catalog 0, id := 0,
    converted := false, fresh := true, isExtension := false, extendedText := none }

/-!
## Helper lemmas
-/

/-- A position holding a character is inside the list. -/
theorem get?_some_lt {s : List Char} {k : Nat} {c : Char} (h : s.get? k = some c) :
    k < s.length := by
  by_contra hk
  rw [List.get?_eq_none.mpr (by omega)] at h
  exact Option.noConfusion h

/-- Membership in the stable-insert step. -/
theorem mem_insertByKey {α : Type} (key : α → Nat) (x : α) (l : List α) (m : α) :
    m ∈ insertByKey key x l ↔ m = x ∨ m ∈ l := by
  induction l with
  | nil => simp [insertByKey]
  | cons y ys ih =>
    by_cases hc : key y ≤ key x
    · simp only [insertByKey, if_pos hc, List.mem_cons, ih]
      try tauto
    · simp only [insertByKey, if_neg hc, List.mem_cons]
      try tauto

/-- Membership across the fold of stable inserts. -/
theorem mem_sortByKey_foldl {α : Type} (key : α → Nat) (l : List α) :
    ∀ (acc : List α) (m : α),
      m ∈ l.foldl (fun a x => insertByKey key x a) acc ↔ m ∈ acc ∨ m ∈ l := by
  induction l with
  | nil => simp
  | cons x xs ih =>
    intro acc m
    simp only [List.foldl_cons, ih, mem_insertByKey, List.mem_cons]
    tauto

/-- Sorting by key preserves membership. -/
theorem mem_sortByKey {α : Type} (key : α → Nat) (l : List α) (m : α) :
    m ∈ sortByKey key l ↔ m ∈ l := by
  simp [sortByKey, mem_sortByKey_foldl]

/-- Sorting by index preserves membership. -/
theorem mem_sortByIndex (l : List ParsedNode) (m : ParsedNode) :
    m ∈ sortByIndex l ↔ m ∈ l :=
  mem_sortByKey _ _ _

/-- The stable-insert step preserves sortedness by the key. -/
theorem pairwise_insertByKey {α : Type} (key : α → Nat) (x : α) (l : List α)
    (h : l.Pairwise fun a b => key a ≤ key b) :
    (insertByKey key x l).Pairwise fun a b => key a ≤ key b := by
  induction l with
  | nil => simp [insertByKey]
  | cons y ys ih =>
    rw [List.pairwise_cons] at h
    by_cases hc : key y ≤ key x
    · rw [insertByKey, if_pos hc, List.pairwise_cons]
      refine ⟨fun b hb => ?_, ih h.2⟩
      rcases (mem_insertByKey key x ys b).mp hb with rfl | hb
      · exact hc
      · exact h.1 b hb
    · rw [insertByKey, if_neg hc, List.pairwise_cons]
      refine ⟨fun b hb => ?_, List.pairwise_cons.mpr h⟩
      rcases List.mem_cons.mp hb with rfl | hb
      · omega
      · exact le_trans (by omega) (h.1 b hb)

/-- The fold of stable inserts returns a key-sorted list. -/
theorem pairwise_sortByKey_foldl {α : Type} (key : α → Nat) (l : List α) :
    ∀ acc : List α, (acc.Pairwise fun a b => key a ≤ key b) →
      (l.foldl (fun a x => insertByKey key x a) acc).Pairwise fun a b => key a ≤ key b := by
  induction l with
  | nil => intro acc h; simpa using h
  | cons x xs ih =>
    intro acc h
    exact ih _ (pairwise_insertByKey key x acc h)

/-- The stable sort returns a key-sorted list. -/
theorem pairwise_sortByKey {α : Type} (key : α → Nat) (l : List α) :
    (sortByKey key l).Pairwise fun a b => key a ≤ key b :=
  pairwise_sortByKey_foldl key l [] (by simp)

/-- Any member of an `addNode` result is the inserted node or an old one. -/
theorem mem_addNode {m node : ParsedNode} {arr : List ParsedNode}
    (h : m ∈ addNode node arr) : m = node ∨ m ∈ arr := by
  simp only [addNode] at h
  split at h
  · exact Or.inr h
  · rcases List.mem_append.mp ((mem_sortByKey _ _ m).mp h) with hm | hm
    · exact Or.inr (List.mem_filter.mp hm).1
    · exact Or.inl (List.mem_singleton.mp hm)

/-- Any member of a fold of `addNode` calls is a submitted candidate or an
element of the initial registry. -/
theorem mem_foldl_addNode (cands : List ParsedNode) :
    ∀ (acc : List ParsedNode) (m : ParsedNode),
      m ∈ cands.foldl (fun r e => addNode e r) acc → m ∈ acc ∨ m ∈ cands := by
  induction cands with
  | nil => intro acc m h; exact Or.inl h
  | cons e es ih =>
    intro acc m h
    rcases ih (addNode e acc) m h with h1 | h1
    · rcases mem_addNode h1 with rfl | h2
      · exact Or.inr (List.mem_cons_self _ _)
      · exact Or.inl h2
    · exact Or.inr (List.mem_cons_of_mem _ h1)

/-- When no intersecting node's displayed text is strictly longer,
`addNode` takes its insertion branch. -/
theorem addNode_not_discarded {node : ParsedNode} {arr : List ParsedNode}
    (h : ∀ n ∈ getIntersectingNodes node.index node.originalText.length arr,
      (nodeText n).length ≤ (nodeText node).length) :
    addNode node arr = sortByIndex ((arr.filter fun n =>
      decide (n.index < node.index ∨ n.index > node.index + node.originalText.length)) ++ [node]) := by
  have hfind : (getIntersectingNodes node.index node.originalText.length arr).find?
      (fun n => decide ((nodeText node).length < (nodeText n).length)) = none := by
    apply List.find?_eq_none.mpr
    intro x hx
    simp only [decide_eq_true_eq, not_lt]
    exact h x hx
  simp only [addNode]
  rw [hfind, ite_self]

/-- Every pair yielded by the `exec` loop is an actual match at a position
inside the text. -/
theorem gExecAux_sound (M : MatcherFn) (s : List Char) :
    ∀ (fuel L : Nat) (pr : Nat × Nat), pr ∈ gExecAux M s fuel L →
      M s pr.1 = some pr.2 ∧ pr.1 ≤ s.length := by
  intro fuel
  induction fuel with
  | zero => intro L pr h; simp [gExecAux] at h
  | succ fuel ih =>
    intro L pr h
    rw [gExecAux] at h
    by_cases hL : L ≤ s.length
    · rw [if_pos hL] at h
      cases hM : M s L with
      | some e =>
        rw [hM] at h
        rcases List.mem_cons.mp h with rfl | h'
        · exact ⟨hM, hL⟩
        · exact ih _ pr h'
      | none =>
        rw [hM] at h
        exact ih _ pr h
    · rw [if_neg hL] at h
      simp at h

/-- Every pair yielded by a global search is an actual match. -/
theorem gExecList_sound {M : MatcherFn} {s : List Char} {pr : Nat × Nat}
    (h : pr ∈ gExecList M s) : M s pr.1 = some pr.2 ∧ pr.1 ≤ s.length :=
  gExecAux_sound M s _ 0 pr h

/-- Membership through the list-of-continuations fold used by `matchToks`. -/
theorem mem_foldr_append {β : Type} (f : Nat → List β) (l : List Nat) (x : β) :
    (x ∈ l.foldr (fun a acc => f a ++ acc) []) ↔ ∃ a ∈ l, x ∈ f a := by
  induction l with
  | nil => simp
  | cons a l ih => simp [ih]

/-- Match ends of a token sequence decompose through the first token. -/
theorem mem_matchToks_cons {t : Tok} {ts : List Tok} {s : List Char} {i j : Nat} :
    j ∈ matchToks (t :: ts) s i ↔ ∃ j' ∈ tokM t s i, j ∈ matchToks ts s j' := by
  rw [matchToks]
  exact mem_foldr_append _ _ _

/-- A non-empty match list for `t :: ts` needs the first token to match. -/
theorem matchToks_cons_tokM {t : Tok} {ts : List Tok} {s : List Char} {i : Nat}
    (h : matchToks (t :: ts) s i ≠ []) : tokM t s i ≠ [] := by
  intro htok
  apply h
  rw [matchToks, htok]
  rfl

/-- Every end position a token yields stays within the text and does not
move backwards. -/
theorem tokM_bounds {t : Tok} {s : List Char} {i j : Nat}
    (hi : i ≤ s.length) (h : j ∈ tokM t s i) : i ≤ j ∧ j ≤ s.length := by
  cases t with
  | hh =>
    rw [tokM] at h
    cases hg : get2 s i with
    | none => rw [hg] at h; simp at h
    | some ab =>
      obtain ⟨a, b⟩ := ab
      rw [hg] at h
      have hb : s.get? (i + 1) = some b := by
        rw [get2] at hg
        cases h0 : s.get? i <;> cases h1 : s.get? (i + 1) <;> rw [h0, h1] at hg <;>
          simp at hg
        exact hg.2 ▸ rfl
      have := get?_some_lt hb
      split at h <;> simp at h
      omega
  | mins =>
    rw [tokM] at h
    cases hg : get2 s i with
    | none => rw [hg] at h; simp at h
    | some ab =>
      obtain ⟨a, b⟩ := ab
      rw [hg] at h
      have hb : s.get? (i + 1) = some b := by
        rw [get2] at hg
        cases h0 : s.get? i <;> cases h1 : s.get? (i + 1) <;> rw [h0, h1] at hg <;>
          simp at hg
        exact hg.2 ▸ rfl
      have := get?_some_lt hb
      split at h <;> simp at h
      omega
  | dd =>
    rw [tokM] at h
    cases hg : get2 s i with
    | none => rw [hg] at h; simp at h
    | some ab =>
      obtain ⟨a, b⟩ := ab
      rw [hg] at h
      have hb : s.get? (i + 1) = some b := by
        rw [get2] at hg
        cases h0 : s.get? i <;> cases h1 : s.get? (i + 1) <;> rw [h0, h1] at hg <;>
          simp at hg
        exact hg.2 ▸ rfl
      have := get?_some_lt hb
      split at h <;> simp at h
      omega
  | mm2 =>
    rw [tokM] at h
    cases hg : get2 s i with
    | none => rw [hg] at h; simp at h
    | some ab =>
      obtain ⟨a, b⟩ := ab
      rw [hg] at h
      have hb : s.get? (i + 1) = some b := by
        rw [get2] at hg
        cases h0 : s.get? i <;> cases h1 : s.get? (i + 1) <;> rw [h0, h1] at hg <;>
          simp at hg
        exact hg.2 ▸ rfl
      have := get?_some_lt hb
      split at h <;> simp at h
      omega
  | ampm =>
    rw [tokM] at h
    cases hg : get2 s i with
    | none => rw [hg] at h; simp at h
    | some ab =>
      obtain ⟨a, b⟩ := ab
      rw [hg] at h
      have hb : s.get? (i + 1) = some b := by
        rw [get2] at hg
        cases h0 : s.get? i <;> cases h1 : s.get? (i + 1) <;> rw [h0, h1] at hg <;>
          simp at hg
        exact hg.2 ▸ rfl
      have := get?_some_lt hb
      split at h <;> simp at h
      omega
  | yyyy =>
    rw [tokM] at h
    cases h0 : s.get? i <;> cases h1 : s.get? (i + 1) <;> cases h2 : s.get? (i + 2) <;>
      cases h3 : s.get? (i + 3) <;> rw [h0, h1, h2, h3] at h <;> simp at h
    have := get?_some_lt h3
    rcases h with ⟨-, rfl⟩
    omega
  | h12 =>
    rw [tokM] at h
    rcases List.mem_append.mp h with h' | h'
    · by_cases h0 : s.get? i = some '0'
      · rw [if_pos h0] at h'
        cases h1 : s.get? (i + 1) with
        | none => rw [h1] at h'; simp at h'
        | some b =>
          rw [h1] at h'
          have := get?_some_lt h1
          split at h' <;> simp at h'
          omega
      · rw [if_neg h0] at h'
        cases h1 : s.get? i with
        | none => rw [h1] at h'; simp at h'
        | some c =>
          rw [h1] at h'
          have := get?_some_lt h1
          split at h' <;> simp at h'
          omega
    · cases hg : get2 s i with
      | none => rw [hg] at h'; simp at h'
      | some ab =>
        obtain ⟨a, b⟩ := ab
        rw [hg] at h'
        have hb : s.get? (i + 1) = some b := by
          rw [get2] at hg
          cases h0 : s.get? i <;> cases h1 : s.get? (i + 1) <;> rw [h0, h1] at hg <;>
            simp at hg
          exact hg.2 ▸ rfl
        have := get?_some_lt hb
        split at h' <;> simp at h'
        omega
  | optSp =>
    rw [tokM] at h
    by_cases h0 : s.get? i = some ' '
    · rw [if_pos h0] at h
      have := get?_some_lt h0
      rcases List.mem_cons.mp h with rfl | h'
      · omega
      · simp at h'
        omega
    · rw [if_neg h0] at h
      rcases List.mem_singleton.mp h with rfl
      omega
  | qmark =>
    rw [tokM] at h
    by_cases h0 : s.get? i = some '?'
    · rw [if_pos h0] at h
      have := get?_some_lt h0
      rcases List.mem_singleton.mp h with rfl
      omega
    · rw [if_neg h0] at h
      simp at h
  | lit c =>
    rw [tokM] at h
    by_cases h0 : s.get? i = some c
    · rw [if_pos h0] at h
      have := get?_some_lt h0
      rcases List.mem_singleton.mp h with rfl
      omega
    · rw [if_neg h0] at h
      simp at h

/-- Every end position of a token-sequence match stays within the text. -/
theorem matchToks_bounds : ∀ (ts : List Tok) {s : List Char} {i j : Nat},
    i ≤ s.length → j ∈ matchToks ts s i → i ≤ j ∧ j ≤ s.length := by
  intro ts
  induction ts with
  | nil =>
    intro s i j hi h
    rw [matchToks] at h
    rcases List.mem_singleton.mp h with rfl
    omega
  | cons t ts ih =>
    intro s i j hi h
    rcases mem_matchToks_cons.mp h with ⟨j', hj', hjj⟩
    have h1 := tokM_bounds hi hj'
    have h2 := ih h1.2 hjj
    omega

/-- The head of a list is a member. -/
theorem head?_mem {l : List Nat} {a : Nat} (h : l.head? = some a) : a ∈ l := by
  cases l with
  | nil => simp at h
  | cons b l => rw [List.head?_cons, Option.some_inj] at h; exact h ▸ List.mem_cons_self b l

/-- A successful anchored match ends within the text, at or after its
start. -/
theorem matchAt_bounds {ts : List Tok} {s : List Char} {i j : Nat}
    (hi : i ≤ s.length) (h : matchAt ts s i = some j) : i ≤ j ∧ j ≤ s.length :=
  matchToks_bounds ts hi (head?_mem h)

/-- A successful match of a compiled source ends within the text, at or
after its start. -/
theorem compileSrc_bounds {src s : List Char} {i j : Nat}
    (hi : i ≤ s.length) (h : compileSrc src s i = some j) : i ≤ j ∧ j ≤ s.length := by
  rw [compileSrc] at h
  cases htk : tokenizeSrc src with
  | some ts => rw [htk] at h; exact matchAt_bounds hi h
  | none => rw [htk] at h; exact Option.noConfusion h

/-- Length of a clamped slice. -/
theorem sliceList_length {s : List Char} {a b : Nat} (hb : b ≤ s.length) (hab : a ≤ b) :
    (sliceList s a b).length = b - a := by
  simp [sliceList]
  omega

/-- Reconciling an empty registry yields no placeholders and no survivors. -/
theorem reconcile_nil (source : List Char) : reconcile source [] = ([], []) := by
  rw [reconcile]
  split <;> rfl

/-- A list filters to nothing when its predicate holds nowhere. -/
theorem filter_eq_nil_of_false {α : Type} {p : α → Bool} {l : List α}
    (h : ∀ a ∈ l, p a = false) : l.filter p = [] := by
  induction l with
  | nil => rfl
  | cons a l ih =>
    rw [List.filter_cons, h a (List.mem_cons_self a l), if_neg (by simp)]
    exact ih fun b hb => h b (List.mem_cons_of_mem a hb)

/-- When no held node sits at a `?` of the source, reconciliation clears
the registry and produces no placeholder candidates. -/
theorem reconcile_no_placeholder {source : List Char} {nodes : List ParsedNode}
    (h : ∀ n ∈ nodes, ¬ source.get? n.index = some '?') :
    reconcile source nodes = ([], []) := by
  rw [reconcile]
  by_cases hc : source.contains '?' = true
  · rw [if_pos hc]
    have h1 : nodes.reverse.filter (fun n => decide (source.get? n.index = some '?')) = [] := by
      apply filter_eq_nil_of_false
      intro a ha
      exact decide_eq_false (h a (List.mem_reverse.mp ha))
    have h2 : (nodes.filter fun n => decide (¬ n ∈
        nodes.reverse.filter fun n => decide (¬ source.get? n.index = some '?'))) = [] := by
      apply filter_eq_nil_of_false
      intro a ha
      have hmem : a ∈ nodes.reverse.filter fun n =>
          decide (¬ source.get? n.index = some '?') := by
        apply List.mem_filter.mpr
        exact ⟨List.mem_reverse.mpr ha, decide_eq_true (h a ha)⟩
      exact decide_eq_false (not_not_intro hmem)
    simp only [h1, h2]
  · rw [if_neg hc]

/-- Nodes proposed by the scan of one pattern are fresh matches of that
pattern at their recorded offset. -/
theorem scanCandidates_prop {source : List Char} {k : Nat} {ts : List Tok} {m : ParsedNode}
    (h : m ∈ scanCandidates source k ts) :
    m.fresh = true ∧ ¬ matchAt ts source m.index = none := by
  rcases List.mem_map.mp h with ⟨pr, hpr, rfl⟩
  have := gExecList_sound hpr
  exact ⟨rfl, by rw [mkScanNode]; simp only; rw [this.1]; simp⟩

/-- Every node of the scan loop's output is an initial node or a scan
candidate of some catalog pattern. -/
theorem mem_scanLoopAux {source : List Char} :
    ∀ (pats : List (List Tok)) (k : Nat) (reg : List ParsedNode) (m : ParsedNode),
      m ∈ scanLoopAux source k pats reg →
      m ∈ reg ∨ ∃ k' ts, ts ∈ pats ∧ m ∈ scanCandidates source k' ts := by
  intro pats
  induction pats with
  | nil => intro k reg m h; exact Or.inl h
  | cons ts rest ih =>
    intro k reg m h
    rw [scanLoopAux] at h
    rcases ih (k + 1) _ m h with h1 | ⟨k', ts', hts', hm⟩
    · rcases mem_foldl_addNode _ _ _ h1 with h2 | h2
      · exact Or.inl h2
      · exact Or.inr ⟨k, ts, List.mem_cons_self ts rest, h2⟩
    · exact Or.inr ⟨k', ts', List.mem_cons_of_mem ts hts', hm⟩

/-- A `yyyy` token cannot start at a `?`. -/
theorem tokM_yyyy_head {s : List Char} {i : Nat} (h : tokM .yyyy s i ≠ []) :
    ¬ s.get? i = some '?' := by
  intro hq
  apply h
  rw [tokM, hq]
  cases h1 : s.get? (i + 1) <;> cases h2 : s.get? (i + 2) <;> cases h3 : s.get? (i + 3) <;>
    simp +decide

/-- An `hh` token cannot start at a `?`. -/
theorem tokM_hh_head {s : List Char} {i : Nat} (h : tokM .hh s i ≠ []) :
    ¬ s.get? i = some '?' := by
  intro hq
  apply h
  rw [tokM, get2, hq]
  cases h1 : s.get? (i + 1) <;> simp +decide

/-- A `dd` token cannot start at a `?`. -/
theorem tokM_dd_head {s : List Char} {i : Nat} (h : tokM .dd s i ≠ []) :
    ¬ s.get? i = some '?' := by
  intro hq
  apply h
  rw [tokM, get2, hq]
  cases h1 : s.get? (i + 1) <;> simp +decide

/-- An `mm2` token cannot start at a `?`. -/
theorem tokM_mm2_head {s : List Char} {i : Nat} (h : tokM .mm2 s i ≠ []) :
    ¬ s.get? i = some '?' := by
  intro hq
  apply h
  rw [tokM, get2, hq]
  cases h1 : s.get? (i + 1) <;> simp +decide

/-- An `h12` token cannot start at a `?`. -/
theorem tokM_h12_head {s : List Char} {i : Nat} (h : tokM .h12 s i ≠ []) :
    ¬ s.get? i = some '?' := by
  intro hq
  apply h
  rw [tokM, get2, hq]
  cases h1 : s.get? (i + 1) <;> simp +decide

/-- A literal `a` token cannot start at a `?`. -/
theorem tokM_litA_head {s : List Char} {i : Nat} (h : tokM (.lit 'a') s i ≠ []) :
    ¬ s.get? i = some '?' := by
  intro hq
  apply h
  rw [tokM, hq]
  simp +decide

/-- No catalog pattern can match starting at a `?` character: each pattern
begins with a year, hour, day or month group or with the literal `a` of
`at`. -/
theorem catalog_head_char {p : List Tok} (hp : p ∈ catalog) {s : List Char} {i : Nat}
    (h : ¬ matchAt p s i = none) : ¬ s.get? i = some '?' := by
  have hmt : matchToks p s i ≠ [] := by
    intro he
    apply h
    rw [matchAt, he]
    rfl
  fin_cases hp <;>
    first
      | exact tokM_yyyy_head (matchToks_cons_tokM hmt)
      | exact tokM_hh_head (matchToks_cons_tokM hmt)
      | exact tokM_dd_head (matchToks_cons_tokM hmt)
      | exact tokM_mm2_head (matchToks_cons_tokM hmt)
      | exact tokM_h12_head (matchToks_cons_tokM hmt)
      | exact tokM_litA_head (matchToks_cons_tokM hmt)

/-- Every node of the scan loop's output either comes from the initial
registry or is a fresh node sitting on a catalog match — in particular it
never sits at a `?` of the source. -/
theorem scanLoop_prop {source : List Char} {reg : List ParsedNode} {m : ParsedNode}
    (h : m ∈ scanLoop source reg) :
    m ∈ reg ∨ (m.fresh = true ∧ ¬ source.get? m.index = some '?') := by
  rcases mem_scanLoopAux catalog 0 reg m h with h1 | ⟨k', ts, hts, hm⟩
  · exact Or.inl h1
  · have hp := scanCandidates_prop hm
    exact Or.inr ⟨hp.1, catalog_head_char hts hp.2⟩

/-- With no placeholders, `findTimesInOriginalSource` is the sorted scan of
the surviving registry, and the widening pass processes nothing. -/
theorem findTimes_no_placeholder {source : List Char} {nodes : List ParsedNode}
    (h : reconcile source nodes = ([], [])) :
    findTimesInOriginalSource source nodes = sortByIndex (scanLoop source []) := by
  rw [findTimesInOriginalSource, findTimesFull, h]
  rfl

/-- Members of a pass started from an empty registry are fresh scan nodes
away from any `?` of the source. -/
theorem findTimes_nil_prop {source : List Char} {m : ParsedNode}
    (h : m ∈ findTimesInOriginalSource source []) :
    m.fresh = true ∧ ¬ source.get? m.index = some '?' := by
  rw [findTimes_no_placeholder (reconcile_nil source)] at h
  rcases scanLoop_prop ((mem_sortByKey _ _ m).mp h) with h1 | h1
  · simp at h1
  · exact h1

/-!
## Claim theorems
-/

/-- Claim C1 (code bug evidence): on the plain input `"13/12/13"`, a full
annotation pass from an empty registry leaves two held spans `[0, 5)`
(`"13/12"` from the `DD/MM` pattern) and `[3, 8)` (`"12/13"` from the
`MM/DD` pattern) whose ranges intersect — the registry's non-overlap
invariant stated by the specification does not hold after every insert. -/
theorem scan_breaks_nonoverlap :
    findTimesInOriginalSource "13/12/13".data [] = [overlapNodeA, overlapNodeB] ∧
    overlapNodeA.index ≤ overlapNodeB.index ∧ overlapNodeB.index < nodeEnd overlapNodeA := by
  refine ⟨by decide, by decide, by decide⟩

/-- Claim C2 (counterexample): with the displayed-text-length measure of
the claim (`extendedText` length if extended, else `originalText` length),
a strictly longer intersecting held span does not force a discard — a
non-fresh held span of recorded length 10 loses to a fresh candidate of
length 5 and the registry changes. -/
theorem insert_discard_spec_counterexample :
    (∃ n ∈ getIntersectingNodes candC2.index candC2.originalText.length [heldC2],
      specDisplayedLength candC2 < specDisplayedLength n) ∧
    ¬ addNode candC2 [heldC2] = [heldC2] := by
  refine ⟨by decide, by decide⟩

/-- Claim C2 (amended): with the code's measure — `"?"` (length 1) for a
non-fresh span, `extendedText` for a fresh extension, `originalText`
otherwise, for candidate and held span alike — a strictly longer
intersecting held span makes `addNode` return the registry unchanged. -/
theorem addNode_discards_when_strictly_longer (node : ParsedNode) (arr : List ParsedNode)
    (h : ∃ n ∈ getIntersectingNodes node.index node.originalText.length arr,
      (nodeText node).length < (nodeText n).length) :
    addNode node arr = arr := by
  obtain ⟨n, hn, hlen⟩ := h
  simp only [addNode]
  cases harr : getIntersectingNodes node.index node.originalText.length arr with
  | nil => rw [harr] at hn; simp at hn
  | cons a as =>
    rw [harr] at hn
    cases hf : (a :: as).find? fun x => decide ((nodeText node).length < (nodeText x).length) with
    | none =>
      exfalso
      have := List.find?_eq_none.mp hf n hn
      simp [hlen] at this
    | some w => simp [hf]

/-- Witness for the amended C2 theorem at a concrete input. -/
theorem addNode_discards_when_strictly_longer_witness :
    (∃ n ∈ getIntersectingNodes candW2.index candW2.originalText.length [heldW2],
      (nodeText candW2).length < (nodeText n).length) ∧
    addNode candW2 [heldW2] = [heldW2] :=
  ⟨by decide, addNode_discards_when_strictly_longer candW2 [heldW2] (by decide)⟩

/-- Claim C3 (counterexample): the held span `[3, 11)` starts inside the
candidate's range `[0, 10)` but ends beyond it — by the claim it must
never be removed — yet `addNode` (whose removal filter looks only at start
offsets) removes it. -/
theorem insert_removal_spec_counterexample :
    ¬ specStrictlyContained candC3 heldC3 ∧
    (∀ n ∈ getIntersectingNodes candC3.index candC3.originalText.length [heldC3],
      (nodeText n).length ≤ (nodeText candC3).length) ∧
    ¬ heldC3 ∈ addNode candC3 [heldC3] := by
  refine ⟨by decide, by decide, by decide⟩

/-- Claim C3 (amended): when the candidate survives the strictly-longer
check, the resulting registry consists exactly of the candidate plus the
held spans whose start offset lies outside the closed range
`[start, start + length]` (regardless of where they end), and it is sorted
by ascending start offset. -/
theorem addNode_insert_membership_sorted (node : ParsedNode) (arr : List ParsedNode)
    (h : ∀ n ∈ getIntersectingNodes node.index node.originalText.length arr,
      (nodeText n).length ≤ (nodeText node).length) :
    (∀ m : ParsedNode, m ∈ addNode node arr ↔
      (m ∈ arr ∧ (m.index < node.index ∨ m.index > node.index + node.originalText.length)) ∨
      m = node) ∧
    (addNode node arr).Pairwise fun a b => a.index ≤ b.index := by
  rw [addNode_not_discarded h]
  constructor
  · intro m
    rw [mem_sortByIndex, List.mem_append, List.mem_filter, List.mem_singleton]
    simp only [decide_eq_true_eq]
  · exact pairwise_sortByKey _ _

/-- Witness for the amended C3 theorem at a concrete input. -/
theorem addNode_insert_membership_sorted_witness :
    (∀ n ∈ getIntersectingNodes candW3.index candW3.originalText.length [heldW3in, heldW3out],
      (nodeText n).length ≤ (nodeText candW3).length) ∧
    ¬ heldW3in ∈ addNode candW3 [heldW3in, heldW3out] ∧
    heldW3out ∈ addNode candW3 [heldW3in, heldW3out] ∧
    candW3 ∈ addNode candW3 [heldW3in, heldW3out] := by
  have h : ∀ n ∈ getIntersectingNodes candW3.index candW3.originalText.length
      [heldW3in, heldW3out], (nodeText n).length ≤ (nodeText candW3).length := by decide
  have hmain := addNode_insert_membership_sorted candW3 [heldW3in, heldW3out] h
  refine ⟨h, ?_, ?_, ?_⟩
  · intro hmem
    rcases (hmain.1 heldW3in).mp hmem with ⟨-, h2⟩ | h2 <;> revert h2 <;> decide
  · exact (hmain.1 heldW3out).mpr (Or.inl ⟨by decide, by decide⟩)
  · exact (hmain.1 candW3).mpr (Or.inr rfl)

/-- Claim C4 (counterexample): the held span `[2, 3)` lies strictly inside
the queried range `[0, 10]`, so the specification's symmetric intersection
test reports it, but `getIntersectingNodes` — which only tests whether an
endpoint of the query falls inside the held span — does not. -/
theorem intersection_symmetry_counterexample :
    specIntersects 0 10 heldC4 ∧ getIntersectingNodes 0 10 [heldC4] = [] := by
  refine ⟨by decide, by decide⟩

/-- Claim C4 (amended): `getIntersectingNodes` keeps exactly the held
spans for which one of the query's endpoints (start or start + length)
falls within the span's closed range `[start, start + originalText
length]`; the test is asymmetric — the held span's own endpoints are never
tested against the query. -/
theorem getIntersectingNodes_mem_iff (index length : Nat) (arr : List ParsedNode)
    (n : ParsedNode) :
    n ∈ getIntersectingNodes index length arr ↔
      n ∈ arr ∧ ((n.index ≤ index ∧ index ≤ nodeEnd n) ∨
        (n.index ≤ index + length ∧ index + length ≤ nodeEnd n)) := by
  rw [getIntersectingNodes, List.mem_filter]
  simp only [ge_iff_le, decide_eq_true_eq]

/-- Claim C7: when the text contains a `?`, reconciliation keeps exactly
the held spans whose recorded offset holds a `?` (and they — walked in
reverse registry order — are precisely the widening candidates); every
other held span is dropped; when the text contains no `?` at all, every
held span is dropped unconditionally. -/
theorem reconcile_placeholder_spec (source : List Char) (nodes : List ParsedNode) :
    (source.contains '?' = true →
      (reconcile source nodes).1 =
        nodes.reverse.filter (fun n => decide (source.get? n.index = some '?')) ∧
      (reconcile source nodes).2 =
        nodes.filter (fun n => decide (source.get? n.index = some '?'))) ∧
    (source.contains '?' = false → reconcile source nodes = ([], [])) := by
  constructor
  · intro hc
    rw [reconcile, if_pos hc]
    refine ⟨rfl, ?_⟩
    apply List.filter_congr
    intro a ha
    by_cases hq : source.get? a.index = some '?'
    · have hnot : ¬ a ∈ nodes.reverse.filter
          fun n => decide (¬ source.get? n.index = some '?') := by
        intro hmem
        have := (List.mem_filter.mp hmem).2
        simp only [decide_eq_true_eq] at this
        exact this hq
      rw [decide_eq_true hnot, decide_eq_true hq]
    · have hmem : a ∈ nodes.reverse.filter
          fun n => decide (¬ source.get? n.index = some '?') :=
        List.mem_filter.mpr ⟨List.mem_reverse.mpr ha, decide_eq_true hq⟩
      rw [decide_eq_false (not_not_intro hmem), decide_eq_false hq]
  · intro hc
    rw [reconcile, if_neg (by rw [hc]; simp)]

/-- Witness for the C7 theorem at a concrete input: of two held spans over
the source `"?x"`, the one recorded at the `?` survives and becomes the
widening candidate, the other is dropped. -/
theorem reconcile_placeholder_spec_witness :
    ("?x".data.contains '?' = true) ∧
    (reconcile "?x".data [rNodeA, rNodeB]).2 = [rNodeA] ∧
    (reconcile "?x".data [rNodeA, rNodeB]).1 = [rNodeA] := by
  have h := (reconcile_placeholder_spec "?x".data [rNodeA, rNodeB]).1 (by decide)
  refine ⟨by decide, ?_, ?_⟩
  · rw [h.2]; decide
  · rw [h.1]; decide

/-- Claim C8 (counterexample): on the fresh input `"13:30"` from an empty
registry, the pass discovers a fresh span, yet the widening step is run
for no span at all — fresh spans found by the current scan are never
widened in the same pass. -/
theorem widening_skips_fresh_scan_counterexample :
    ((findTimesFull "13:30".data []).1.any fun n => n.fresh) = true ∧
    (findTimesFull "13:30".data []).2 = [] := by
  refine ⟨by decide, by decide⟩

/-- Claim C8 (amended): the spans the widening step is run for are exactly
the prior-registry spans sitting at a `?` of the current text (in reverse
registry order) — never the spans newly discovered by the current pass's
scan; with no `?` in the text the widening step processes nothing. -/
theorem widening_set_eq_placeholders (source : List Char) (nodes : List ParsedNode) :
    (findTimesFull source nodes).2 =
      if source.contains '?' = true then
        nodes.reverse.filter fun n => decide (source.get? n.index = some '?')
      else [] := by
  simp only [findTimesFull, reconcile]
  by_cases hc : source.contains '?' = true
  · rw [if_pos hc, if_pos hc]
  · rw [if_neg hc, if_neg hc]

/-- Claim C10: when at least one held span intersects the candidate but
none is strictly longer under the code's displayed-text measure, `addNode`
accepts the candidate: the result is the sorted registry made of the
candidate plus every held span whose start offset lies outside the closed
range `[start, start + originalText length]` — so an equal-length conflict
is resolved in favour of the span processed last — and a non-fresh held
span always measures as the one-character text `"?"`. -/
theorem addNode_equal_length_accepts (node : ParsedNode) (arr : List ParsedNode)
    (h1 : getIntersectingNodes node.index node.originalText.length arr ≠ [])
    (h2 : ∀ n ∈ getIntersectingNodes node.index node.originalText.length arr,
      (nodeText n).length ≤ (nodeText node).length) :
    addNode node arr = sortByIndex ((arr.filter fun n =>
      decide (n.index < node.index ∨ n.index > node.index + node.originalText.length)) ++
      [node]) ∧
    node ∈ addNode node arr ∧
    (∀ m ∈ arr, node.index ≤ m.index → m.index ≤ node.index + node.originalText.length →
      ¬ m = node → ¬ m ∈ addNode node arr) ∧
    ∀ n : ParsedNode, n.fresh = false → nodeText n = ['?'] := by
  have heq := addNode_not_discarded h2
  refine ⟨heq, ?_, ?_, ?_⟩
  · rw [heq, mem_sortByIndex]
    exact List.mem_append_right _ (List.mem_singleton_self _)
  · intro m hm hlo hhi hne hmem
    rw [heq] at hmem
    rcases List.mem_append.mp ((mem_sortByIndex _ m).mp hmem) with hmf | hmn
    · have := (List.mem_filter.mp hmf).2
      simp only [decide_eq_true_eq] at this
      omega
    · exact hne (List.mem_singleton.mp hmn)
  · intro n hn
    rw [nodeText, if_neg (by simp [hn])]

/-- Witness for the C10 theorem at a concrete equal-length conflict: the
candidate `"21/03"` and the held span `"03/21"` share range `[0, 5)`; the
candidate wins and the held span is removed. -/
theorem addNode_equal_length_accepts_witness :
    (getIntersectingNodes candC10.index candC10.originalText.length [heldC10] ≠ []) ∧
    (∀ n ∈ getIntersectingNodes candC10.index candC10.originalText.length [heldC10],
      (nodeText n).length ≤ (nodeText candC10).length) ∧
    candC10 ∈ addNode candC10 [heldC10] ∧
    ¬ heldC10 ∈ addNode candC10 [heldC10] := by
  have h1 : getIntersectingNodes candC10.index candC10.originalText.length [heldC10] ≠ [] := by
    decide
  have h2 : ∀ n ∈ getIntersectingNodes candC10.index candC10.originalText.length [heldC10],
      (nodeText n).length ≤ (nodeText candC10).length := by decide
  have hm := addNode_equal_length_accepts candC10 [heldC10] h1 h2
  exact ⟨h1, h2, hm.2.1,
    hm.2.2.1 heldC10 (List.mem_singleton_self _) (by decide) (by decide) (by decide)⟩

/-- Format scanning returns the first accepted format, in list order. -/
theorem tryFormats_first (sv : List Char → List Char → Bool) (ts : List Char) :
    ∀ (fs : List (List Char)) (i : Nat) (h : i < fs.length),
      sv (fs.get ⟨i, h⟩) ts = true →
      (∀ j (hj : j < i), sv (fs.get ⟨j, Nat.lt_trans hj h⟩) ts = false) →
      tryFormats sv ts fs = some (fs.get ⟨i, h⟩) := by
  intro fs
  induction fs with
  | nil => intro i h; simp at h
  | cons f rest ih =>
    intro i h hok hprev
    cases i with
    | zero =>
      rw [tryFormats, if_pos (show sv f ts = true from hok)]
      rfl
    | succ i =>
      have hf : sv f ts = false := hprev 0 (Nat.succ_pos i)
      rw [tryFormats, if_neg (by rw [hf]; simp)]
      exact ih i (Nat.lt_of_succ_lt_succ h) hok
        fun j hj => hprev (j + 1) (Nat.succ_lt_succ hj)

/-- Format scanning fails when no format is accepted. -/
theorem tryFormats_none (sv : List Char → List Char → Bool) (ts : List Char) :
    ∀ (fs : List (List Char)), (∀ f ∈ fs, sv f ts = false) → tryFormats sv ts fs = none := by
  intro fs
  induction fs with
  | nil => intro h; rfl
  | cons f rest ih =>
    intro h
    rw [tryFormats, if_neg (by rw [h f (List.mem_cons_self f rest)]; simp)]
    exact ih fun g hg => h g (List.mem_cons_of_mem f hg)

/-- Claim C5: `parseHumanTime` returns the strict parse of the first
format (in `humanTimeFormats` order) the strict parser accepts; when no
strict format is accepted it returns the lenient natural-language parse;
when that fails too it returns `null` — and, being a total function into
an option type, a failed resolution is an ordinary `none` value that never
aborts the annotation pass. -/
theorem parseHumanTime_spec (sv : List Char → List Char → Bool)
    (nv : List Char → Bool) (ts : List Char) :
    (∀ (i : Nat) (h : i < humanTimeFormats.length),
      sv (humanTimeFormats.get ⟨i, h⟩) ts = true →
      (∀ j (hj : j < i), sv (humanTimeFormats.get ⟨j, Nat.lt_trans hj h⟩) ts = false) →
      parseHumanTime sv nv ts = some (some (humanTimeFormats.get ⟨i, h⟩), ts)) ∧
    ((∀ f ∈ humanTimeFormats, sv f ts = false) → nv ts = true →
      parseHumanTime sv nv ts = some (none, ts)) ∧
    ((∀ f ∈ humanTimeFormats, sv f ts = false) → nv ts = false →
      parseHumanTime sv nv ts = none) := by
  refine ⟨?_, ?_, ?_⟩
  · intro i h hok hprev
    rw [parseHumanTime, tryFormats_first sv ts humanTimeFormats i h hok hprev]
  · intro hall hn
    rw [parseHumanTime, tryFormats_none sv ts humanTimeFormats hall]
    simp [hn]
  · intro hall hn
    rw [parseHumanTime, tryFormats_none sv ts humanTimeFormats hall]
    simp [hn]

/-- Witness for the C5 theorem: with a strict parser accepting exactly the
`DD/MM/YYYY` format (index 4; every earlier format rejected), resolution
returns the strict parse with that format; with nothing accepted it falls
back to the lenient parse, and fails to `none` when that is also
rejected. -/
theorem parseHumanTime_spec_witness :
    parseHumanTime (fun f _ => f == "DD/MM/YYYY".data) (fun _ => false) "21/03/2024".data =
      some (some "DD/MM/YYYY".data, "21/03/2024".data) ∧
    parseHumanTime (fun _ _ => false) (fun _ => true) "tomorrow".data =
      some (none, "tomorrow".data) ∧
    parseHumanTime (fun _ _ => false) (fun _ => false) "xyz".data = none := by
  refine ⟨?_, ?_, ?_⟩
  · have h := (parseHumanTime_spec (fun f _ => f == "DD/MM/YYYY".data)
      (fun _ => false) "21/03/2024".data).1 4 (by decide) (by decide)
      (by decide)
    rw [h]
    decide
  · exact (parseHumanTime_spec (fun _ _ => false) (fun _ => true) "tomorrow".data).2.1
      (by decide) rfl
  · exact (parseHumanTime_spec (fun _ _ => false) (fun _ => false) "xyz".data).2.2
      (by decide) rfl

/-- Claim C9: every extension node the widening pass submits for a
placeholder node starts exactly at that node's recorded offset (matches
elsewhere are skipped), is a fresh `Extended` span, carries as
`extendedText` the matched text with the `?` wildcard replaced back by the
node's original text, and its `originalText` is an actual match of the
derived extension pattern (the catalog pattern's source with the node's
own pattern source replaced by `(\?)`) covering exactly its recorded
range.  Submission to the registry happens through `addNode`
(`widenNodePattern` folds `addNode` over exactly this candidate list). -/
theorem widening_position_substitution (source : List Char) (node : ParsedNode)
    (ts : List Tok) (e : ParsedNode) (he : e ∈ extensionCandidates source node ts) :
    e.index = node.index ∧ e.isExtension = true ∧ e.fresh = true ∧
    e.extendedText = some (replaceFirstStr ['?'] node.originalText e.originalText) ∧
    compileSrc (replaceFirstStr (srcOf node.format) (tokSrc .qmark) (rxSrc ts)) source
      e.index = some (e.index + e.originalText.length) := by
  simp only [extensionCandidates] at he
  rcases List.mem_map.mp he with ⟨pr, hpr, rfl⟩
  have hidx : node.index = pr.1 := by
    have := (List.mem_filter.mp hpr).2
    simpa using this
  have hmem := (List.mem_filter.mp hpr).1
  have hsound := gExecList_sound hmem
  have hb := compileSrc_bounds hsound.2 hsound.1
  have hlen : (sliceList source pr.1 pr.2).length = pr.2 - pr.1 :=
    sliceList_length hb.2 hb.1
  refine ⟨hidx.symm, rfl, rfl, rfl, ?_⟩
  show compileSrc (replaceFirstStr (srcOf node.format) (tokSrc .qmark) (rxSrc ts)) source
    pr.1 = some (pr.1 + (sliceList source pr.1 pr.2).length)
  rw [hlen, show pr.1 + (pr.2 - pr.1) = pr.2 by omega]
  exact hsound.1

/-- Witness for the C9 theorem: widening the recorded `"13:30"` span
(format `HH:mm`, catalog index 18) with the `HH:mm:ss` pattern over the
source `"?:45"` produces the extension node covering `"?:45"` at offset 0
with `extendedText` `"13:30:45"`. -/
theorem widening_position_substitution_witness :
    widenExtW ∈ extensionCandidates "?:45".data widenNodeW widenToksW ∧
    widenExtW.index = widenNodeW.index ∧
    widenExtW.extendedText =
      some (replaceFirstStr ['?'] widenNodeW.originalText widenExtW.originalText) := by
  have hmem : widenExtW ∈ extensionCandidates "?:45".data widenNodeW widenToksW := by decide
  have h := widening_position_substitution "?:45".data widenNodeW widenToksW widenExtW hmem
  exact ⟨hmem, h.1, h.2.2.2.1⟩

/-- Claim C6: running the whole-string annotation pass twice over the same
unchanged text (starting from the empty registry of a fresh session)
yields identical output segments — the same spans at the same positions
with the same text.  The key facts are that every node a pass from an
empty registry can hold sits on a catalog match, that no catalog pattern
can match starting at a `?`, and that reconciliation therefore clears the
registry again at the start of the second pass, which then rescans the
unchanged text deterministically. -/
theorem wholeStringMatch_idempotent (source : List Char) :
    (wholeStringMatch source (wholeStringMatch source []).2).1 =
      (wholeStringMatch source []).1 := by
  have hchar : ∀ n ∈ findTimesInOriginalSource source [], ¬ source.get? n.index = some '?' :=
    fun n hn => (findTimes_nil_prop hn).2
  cases hany : (findTimesInOriginalSource source []).any (fun n => n.fresh) with
  | false =>
    have h1 : wholeStringMatch source [] = (none, findTimesInOriginalSource source []) := by
      simp only [wholeStringMatch, hany]
      rw [if_neg Bool.false_ne_true]
    have hrec : reconcile source (findTimesInOriginalSource source []) = ([], []) :=
      reconcile_no_placeholder hchar
    have hsame : findTimesInOriginalSource source (findTimesInOriginalSource source []) =
        findTimesInOriginalSource source [] := by
      rw [findTimes_no_placeholder hrec, findTimes_no_placeholder (reconcile_nil source)]
    have h2 : wholeStringMatch source (findTimesInOriginalSource source []) =
        (none, findTimesInOriginalSource source []) := by
      simp only [wholeStringMatch, hsame, hany]
      rw [if_neg Bool.false_ne_true]
    rw [h1, h2]
  | true =>
    have h1 : wholeStringMatch source [] =
        (if (wholeStringSplit source (findTimesInOriginalSource source [])).isEmpty then none
          else some (wholeStringSplit source (findTimesInOriginalSource source [])),
          (findTimesInOriginalSource source []).map fun n => { n with fresh := false }) := by
      simp only [wholeStringMatch, hany]
      rw [if_pos trivial]
    have hchar2 : ∀ n ∈ (findTimesInOriginalSource source []).map
        (fun n => { n with fresh := false }), ¬ source.get? n.index = some '?' := by
      intro n hn
      rcases List.mem_map.mp hn with ⟨m, hm, rfl⟩
      exact hchar m hm
    have hrec2 : reconcile source ((findTimesInOriginalSource source []).map
        (fun n => { n with fresh := false })) = ([], []) :=
      reconcile_no_placeholder hchar2
    have hsame : findTimesInOriginalSource source ((findTimesInOriginalSource source []).map
        (fun n => { n with fresh := false })) = findTimesInOriginalSource source [] := by
      rw [findTimes_no_placeholder hrec2, findTimes_no_placeholder (reconcile_nil source)]
    have h2 : wholeStringMatch source ((findTimesInOriginalSource source []).map
        (fun n => { n with fresh := false })) =
        (if (wholeStringSplit source (findTimesInOriginalSource source [])).isEmpty then none
          else some (wholeStringSplit source (findTimesInOriginalSource source [])),
          (findTimesInOriginalSource source []).map fun n => { n with fresh := false }) := by
      simp only [wholeStringMatch, hsame, hany]
      rw [if_pos trivial]
    rw [h1, h2]
